import Mathlib

/-!
# Verification of the excel-typo-detector core

Shallow embedding of the terminology-consistency detection engine, the
model-assisted review batching and parsing layer, and the result
reconciliation logic of the excel-typo-detector repository, together with
proofs settling the frozen specification claims.

Source files embedded:
* `src/mechanical_detector.py` — term extraction, occurrence collection,
  inconsistency detection, canonical resolution, finding synthesis;
* `src/llm.py` — sheet batching, JSON extraction/repair, response parsing;
* `main.py` — merge of mechanical and model findings.

Modelling conventions: Python strings are `String`; Python `None`-able
values are `Option`; Python floats are modelled as `ℚ` (the constants
compared here — 0.7, 0.85, 0.90 — are exact in both representations);
Python dicts are modelled either as insertion-ordered association lists
(where iteration order matters) or as `String → Option α` tables (where
only lookup matters).
-/

/-- Whitespace characters stripped by Python `str.strip()` (the repertoire
relevant to this code base: ASCII whitespace plus NEL, NBSP and the
ideographic space U+3000). -/
def isPyWs (c : Char) : Bool :=
  c.toNat = 9 || c.toNat = 10 || c.toNat = 11 || c.toNat = 12 ||
  c.toNat = 13 || c.toNat = 32 || c.toNat = 0x85 || c.toNat = 0xa0 ||
  c.toNat = 0x3000

/-- Python `str.strip()` on a character list. -/
def pyStripL (l : List Char) : List Char :=
  ((l.dropWhile isPyWs).reverse.dropWhile isPyWs).reverse

/-- Python `str.strip()`. -/
def pyStrip (s : String) : String := String.mk (pyStripL s.data)

/-- ASCII lower-casing of one character.  Python `str.lower()` lowercases
every cased Unicode letter; the terms handled by this system are Japanese
(no case) or ASCII, where the two coincide. -/
def pyLowerChar (c : Char) : Char :=
  if 65 ≤ c.toNat ∧ c.toNat ≤ 90 then Char.ofNat (c.toNat + 32) else c

/-- Python `str.lower()` (ASCII fragment, see `pyLowerChar`). -/
def pyLower (s : String) : String := String.mk (s.data.map pyLowerChar)

section MechanicalDetector

/-! ## `src/mechanical_detector.py` -/

/-- Embeds `extract.CellData`: one extracted spreadsheet cell. -/
structure CellData where
  file_name : String
  sheet_name : String
  cell_address : String
  row : Nat
  column : Nat
  text : String
deriving DecidableEq, Repr, Inhabited

/-- Embeds `mechanical_detector.TermOccurrence`. -/
structure TermOccurrence where
  file_name : String
  sheet_name : String
  cell_address : String
  row : Nat
  column : Nat
  original_text : String
deriving DecidableEq, Repr

/-- Embeds `mechanical_detector.DetectionResult`: a mechanical finding.
`suggested_fix` and `canonical` are `Option` because the unresolved branch
stores Python `None` in them. -/
structure DetectionResult where
  file_name : String
  sheet_name : String
  cell_address : String
  row : Nat
  column : Nat
  original : String
  suggested_fix : Option String
  issue_type : String
  reason : String
  confidence : ℚ
  canonical : Option String
deriving DecidableEq, Repr

/-- Hiragana run class, regex `[ぁ-ん]+` (U+3041–U+3093). -/
def hiraClass (c : Char) : Bool := 0x3041 ≤ c.toNat ∧ c.toNat ≤ 0x3093

/-- Full-width katakana run class, regex `[ァ-ヶー]+` (U+30A1–U+30F6 plus
the long-vowel mark U+30FC). -/
def kataClass (c : Char) : Bool :=
  (0x30a1 ≤ c.toNat ∧ c.toNat ≤ 0x30f6) || c.toNat = 0x30fc

/-- Half-width katakana run class, regex `[ｦ-ﾟ]+` (U+FF66–U+FF9F). -/
def hkataClass (c : Char) : Bool := 0xff66 ≤ c.toNat ∧ c.toNat ≤ 0xff9f

/-- CJK ideograph run class, regex `[一-龯]+` (U+4E00–U+9FAF). -/
def kanjiClass (c : Char) : Bool := 0x4e00 ≤ c.toNat ∧ c.toNat ≤ 0x9faf

/-- Alphanumeric run class, regex `[a-zA-Z0-9]+`. -/
def alnumClass (c : Char) : Bool :=
  (97 ≤ c.toNat ∧ c.toNat ≤ 122) || (65 ≤ c.toNat ∧ c.toNat ≤ 90) ||
  (48 ≤ c.toNat ∧ c.toNat ≤ 57)

/-- Whole-text character class of `_extract_terms`, regex
`[ぁ-んァ-ヶｦ-ﾟ一-龯a-zA-Z0-9・\-_ー]+$`: hiragana, full-width katakana,
half-width katakana, CJK ideographs, latin letters and digits,
middle dot U+30FB, hyphen-minus, underscore, long-vowel mark U+30FC. -/
def allowedChar (c : Char) : Bool :=
  (0x3041 ≤ c.toNat ∧ c.toNat ≤ 0x3093) ||
  (0x30a1 ≤ c.toNat ∧ c.toNat ≤ 0x30f6) ||
  (0xff66 ≤ c.toNat ∧ c.toNat ≤ 0xff9f) ||
  (0x4e00 ≤ c.toNat ∧ c.toNat ≤ 0x9faf) ||
  (97 ≤ c.toNat ∧ c.toNat ≤ 122) || (65 ≤ c.toNat ∧ c.toNat ≤ 90) ||
  (48 ≤ c.toNat ∧ c.toNat ≤ 57) ||
  c.toNat = 0x30fb || c.toNat = 45 || c.toNat = 95 || c.toNat = 0x30fc

/-- Full anchored match `re.match(r'[class]+$', s)`: the string is
nonempty and every character lies in the class (after `strip`, no trailing
newline remains, so `$` means end of string). -/
def matchesClassPlus (cls : Char → Bool) (s : String) : Bool :=
  !s.data.isEmpty && s.data.all cls

/-- Embeds `re.findall(r'[class]+', l)`: maximal runs of characters of the class,
in source order.  `cur` accumulates the current run reversed. -/
def classRunsAux (cls : Char → Bool) (cur : List Char) :
    List Char → List (List Char)
  | [] => if cur.isEmpty then [] else [cur.reverse]
  | c :: rest =>
    if cls c then classRunsAux cls (c :: cur) rest
    else if cur.isEmpty then classRunsAux cls [] rest
    else cur.reverse :: classRunsAux cls [] rest

/-- Maximal runs of `cls` characters of `l`, in order. -/
def classRuns (cls : Char → Bool) (l : List Char) : List (List Char) :=
  classRunsAux cls [] l

/-- The per-class component extraction of `_extract_terms`: for each of
the five patterns, the runs of length ≥ 2, in pattern order. -/
def componentTerms (text : String) : List String :=
  [hiraClass, kataClass, hkataClass, kanjiClass, alnumClass].flatMap
    (fun cls =>
      ((classRuns cls text.data).filter (fun r => 2 ≤ r.length)).map String.mk)

/-- Embeds `MechanicalDetector._extract_terms`: the whole stripped text first when
it matches the allowed class, then the per-class components. -/
def extract_terms (text : String) : List String :=
  (if matchesClassPlus allowedChar (pyStrip text) then [pyStrip text] else [])
    ++ componentTerms text

/-- A dictionary rule of `dict/canonicals.yml`: `{expected, patterns[]}`. -/
structure CanonRule where
  expected : String
  patterns : List String
deriving DecidableEq, Repr

/-- The canonical-rules dict is written key by key; lookup returns the
last value written for a key, as in a Python dict. -/
def rulesLookup (m : List (String × String)) (k : String) : Option String :=
  (m.reverse.find? (fun p => p.1 == k)).map (·.2)

/-- Embeds `MechanicalDetector._load_canonical_rules`: for every rule, map
`expected.lower()` to `expected` and every `pattern.lower()` to
`expected`.  Only the lower-cased key is written. -/
def load_canonical_rules (rules : List CanonRule) : List (String × String) :=
  rules.foldl
    (fun m r =>
      (m ++ [(pyLower r.expected, r.expected)]) ++
        r.patterns.map (fun p => (pyLower p, r.expected)))
    []

/-- Embeds `MechanicalDetector._get_canonical_form`: for each variant in order,
look the variant up exactly, then lower-cased; afterwards look the term
itself up exactly; otherwise `None`. -/
def get_canonical_form (m : List (String × String)) (term : String) :
    List String → Option String
  | [] =>
    match rulesLookup m term with
    | some c => some c
    | none => none
  | v :: rest =>
    match rulesLookup m v with
    | some c => some c
    | none =>
      match rulesLookup m (pyLower v) with
      | some c => some c
      | none => get_canonical_form m term rest

/-- The per-term value of `_detect_term_inconsistencies`: the variants
dict (insertion-ordered surface form → occurrences) and the resolved
canonical. -/
structure InconsistencyData where
  variants : List (String × List TermOccurrence)
  canonical : Option String
deriving DecidableEq, Repr

/-- The finding built for one occurrence of a non-canonical variant in the
resolved branch of `_generate_detection_results`. -/
def mkVariantFinding (occ : TermOccurrence) (variant_text c : String) :
    DetectionResult :=
  { file_name := occ.file_name
    sheet_name := occ.sheet_name
    cell_address := occ.cell_address
    row := occ.row
    column := occ.column
    original := variant_text
    suggested_fix := some c
    issue_type := "variant"
    reason := "表記統一ルールに従い「" ++ c ++ "」に統一"
    confidence := 0.90
    canonical := some c }

/-- One `file:sheet:address(surface_form)` location entry of the
unresolved branch. -/
def locEntry (occ : TermOccurrence) (variant_text : String) : String :=
  occ.file_name ++ ":" ++ occ.sheet_name ++ ":" ++ occ.cell_address ++
    "(" ++ variant_text ++ ")"

/-- The location list of the unresolved branch, over all variants and
occurrences in order. -/
def locationsOf (variants : List (String × List TermOccurrence)) :
    List String :=
  variants.flatMap (fun p => p.2.map (fun occ => locEntry occ p.1))

/-- Embeds `", ".join(locations[:5])` plus the `" など{n}箇所"` marker appended
when more than five locations exist (`n` is the total location count). -/
def locationsStr (locations : List String) : String :=
  String.intercalate ", " (locations.take 5) ++
    (if 5 < locations.length then
      " など" ++ toString locations.length ++ "箇所"
    else "")

/-- The unresolved branch of the loop body of
`_generate_detection_results`: one finding anchored at the first
occurrence of the first variant.  Python indexes
`variants[first_variant][0]`; an empty variants dict or an empty
occurrence list would raise `IndexError` — both are impossible for groups
built by `_detect_term_inconsistencies` (≥ 2 variants, each with ≥ 1
occurrence), and the embedding returns `[]` there. -/
def generateUnresolved :
    List (String × List TermOccurrence) → List DetectionResult
  | (v0, occ0 :: orest) :: rest =>
    let locations := locationsOf ((v0, occ0 :: orest) :: rest)
    [{ file_name := occ0.file_name
       sheet_name := occ0.sheet_name
       cell_address := occ0.cell_address
       row := occ0.row
       column := occ0.column
       original := v0
       suggested_fix := none
       issue_type := "variant"
       reason := "表記が統一されていません。出現箇所: " ++ locationsStr locations
       confidence := 0.85
       canonical := none }]
  | _ => []

/-- The loop body of `_generate_detection_results` for one inconsistency
group.  Python `if canonical:` is truthiness: `None` and the empty string
both select the unresolved branch. -/
def generateForGroup (g : String × InconsistencyData) : List DetectionResult :=
  match g.2.canonical with
  | some c =>
    if c ≠ "" then
      g.2.variants.flatMap (fun p =>
        if p.1 ≠ c then p.2.map (fun occ => mkVariantFinding occ p.1 c)
        else [])
    else generateUnresolved g.2.variants
  | none => generateUnresolved g.2.variants

/-- Embeds `MechanicalDetector._generate_detection_results`: concatenation of the
per-group findings, in group order. -/
def generate_detection_results
    (inconsistencies : List (String × InconsistencyData)) :
    List DetectionResult :=
  inconsistencies.flatMap generateForGroup

end MechanicalDetector

section JsonRepair

/-! ## `src/llm.py` — JSON validity and `_repair_json`

`json.loads` acceptance is modelled by a recursive-descent validator over
the character list (strict JSON: RFC 8259 values, `json` module whitespace
` \t\n\r`, no raw control characters in strings, no leading zeros). -/

/-- JSON inter-token whitespace as skipped by Python's `json` module. -/
def skipJsonWs : List Char → List Char
  | [] => []
  | c :: rest =>
    if c = ' ' || c = '\t' || c = '\n' || c = '\r' then skipJsonWs rest
    else c :: rest

/-- Hexadecimal digit. -/
def isHexDigit (c : Char) : Bool :=
  c.isDigit || (97 ≤ c.toNat ∧ c.toNat ≤ 102) || (65 ≤ c.toNat ∧ c.toNat ≤ 70)

/-- Consume the body of a JSON string after the opening quote; return the
rest of the input after the closing quote. -/
def parseStringBody : List Char → Option (List Char)
  | [] => none
  | c :: rest =>
    if c = '"' then some rest
    else if c = '\\' then
      match rest with
      | [] => none
      | e :: r2 =>
        if e = '"' || e = '\\' || e = '/' || e = 'b' || e = 'f' ||
            e = 'n' || e = 'r' || e = 't' then parseStringBody r2
        else if e = 'u' then
          match r2 with
          | h1 :: h2 :: h3 :: h4 :: r3 =>
            if isHexDigit h1 && isHexDigit h2 && isHexDigit h3 && isHexDigit h4
            then parseStringBody r3 else none
          | _ => none
        else none
    else if c.toNat < 0x20 then none
    else parseStringBody rest

/-- Consume the exponent part (if present) at the end of a JSON number. -/
def parseNumExp (l : List Char) : Option (List Char) :=
  match l with
  | e :: r2 =>
    if e = 'e' || e = 'E' then
      let r3 := match r2 with
        | s :: rr => if s = '+' || s = '-' then rr else s :: rr
        | [] => []
      let (ds, r4) := r3.span Char.isDigit
      if ds.isEmpty then none else some r4
    else some l
  | [] => some l

/-- Consume the fraction and exponent parts after the integer part. -/
def parseNumFrac (l : List Char) : Option (List Char) :=
  match l with
  | '.' :: r2 =>
    let (ds, r3) := r2.span Char.isDigit
    if ds.isEmpty then none else parseNumExp r3
  | _ => parseNumExp l

/-- Consume one JSON number (strict grammar: optional minus, `0` or a
nonzero-led digit run, optional fraction, optional exponent). -/
def parseNumber (l : List Char) : Option (List Char) :=
  let l1 := match l with
    | '-' :: r => r
    | _ => l
  match l1 with
  | '0' :: r => parseNumFrac r
  | c :: r =>
    if c.isDigit then parseNumFrac (r.dropWhile Char.isDigit) else none
  | [] => none

/-- Expect a literal keyword (`true`/`false`/`null` tail). -/
def parseKeyword (kw : List Char) (l : List Char) : Option (List Char) :=
  match kw, l with
  | [], rest => some rest
  | k :: ks, c :: rest => if c = k then parseKeyword ks rest else none
  | _ :: _, [] => none

mutual

/-- Consume one JSON value (fuel-bounded recursive descent). -/
def parseValue : Nat → List Char → Option (List Char)
  | 0, _ => none
  | fuel + 1, l =>
    match skipJsonWs l with
    | [] => none
    | c :: rest =>
      if c = '{' then
        match skipJsonWs rest with
        | '}' :: r2 => some r2
        | r => parseMembers fuel r
      else if c = '[' then
        match skipJsonWs rest with
        | ']' :: r2 => some r2
        | r => parseElements fuel r
      else if c = '"' then parseStringBody rest
      else if c = 't' then parseKeyword ['r', 'u', 'e'] rest
      else if c = 'f' then parseKeyword ['a', 'l', 's', 'e'] rest
      else if c = 'n' then parseKeyword ['u', 'l', 'l'] rest
      else if c = '-' || c.isDigit then parseNumber (c :: rest)
      else none

/-- Consume the members of an object after `{` (at least one member). -/
def parseMembers : Nat → List Char → Option (List Char)
  | 0, _ => none
  | fuel + 1, l =>
    match skipJsonWs l with
    | '"' :: rest =>
      match parseStringBody rest with
      | none => none
      | some r1 =>
        match skipJsonWs r1 with
        | ':' :: r2 =>
          match parseValue fuel r2 with
          | none => none
          | some r3 =>
            match skipJsonWs r3 with
            | ',' :: r4 => parseMembers fuel r4
            | '}' :: r4 => some r4
            | _ => none
        | _ => none
    | _ => none

/-- Consume the elements of an array after `[` (at least one element). -/
def parseElements : Nat → List Char → Option (List Char)
  | 0, _ => none
  | fuel + 1, l =>
    match parseValue fuel l with
    | none => none
    | some r =>
      match skipJsonWs r with
      | ',' :: r2 => parseElements fuel r2
      | ']' :: r2 => some r2
      | _ => none

end

/-- Holds when `json.loads(s)` succeeds: one JSON value surrounded only by
whitespace.  The fuel `2 * length + 2` dominates the recursion depth
(each nesting level consumes at least one character and two fuel). -/
def jsonParses (s : String) : Bool :=
  match parseValue (2 * s.data.length + 2) s.data with
  | some r => (skipJsonWs r).isEmpty
  | none => false

/-- The line-scanning loop of `_repair_json`: strip each line, skip blank
lines, track brace/bracket balance, keep lines until a balance goes
negative (the offending line is kept before the loop breaks); returns the
kept lines and the final balances. -/
def repairLoop : List (List Char) → Int → Int → (List (List Char) × Int × Int)
  | [], bc, kc => ([], bc, kc)
  | line :: rest, bc, kc =>
    let l := pyStripL line
    if l.isEmpty then repairLoop rest bc kc
    else
      let bc2 := bc + (l.count '{' : Int) - (l.count '}' : Int)
      let kc2 := kc + (l.count '[' : Int) - (l.count ']' : Int)
      if bc2 < 0 || kc2 < 0 then ([l], bc2, kc2)
      else
        let (ls, b, k) := repairLoop rest bc2 kc2
        (l :: ls, b, k)

/-- Python `s.split('\n')`. -/
def splitNl : List Char → List (List Char)
  | [] => [[]]
  | c :: rest =>
    if c = '\n' then [] :: splitNl rest
    else
      match splitNl rest with
      | [] => [[c]]
      | l :: ls => (c :: l) :: ls

/-- Embeds `LLMReviewer._repair_json`: return well-formed input unchanged;
otherwise strip, drop trailing commas, truncate at the last
balance-non-negative line, then append one `]` when the bracket balance is
positive and `}` times the brace balance when it is positive. -/
def repair_json (json_text : String) : String :=
  if jsonParses json_text then json_text
  else
    let r0 := pyStripL json_text.data
    let r1 := if r0.getLast? = some ',' then
        (r0.reverse.dropWhile (· == ',')).reverse
      else r0
    let (ls, bc, kc) := repairLoop (splitNl r1) 0 0
    let out := List.intercalate ['\n'] ls
    let out := if 0 < kc then out ++ [']'] else out
    let out := if 0 < bc then out ++ List.replicate bc.toNat '}' else out
    String.mk out

end JsonRepair

section LLMReview

/-! ## `src/llm.py` — sheet batching and batch-response parsing -/

/-- Embeds `llm.LLMReviewResponse`.  The field `source_cell` models
`source_detection.cell_data`, the only part of the back-referenced
detection consumed downstream (`None` when the back reference is absent). -/
structure LLMReviewResponse where
  issue_type : String
  original : String
  suggested_fix : Option String
  canonical : Option String
  reason : String
  confidence : ℚ
  source_cell : Option CellData
deriving DecidableEq, Repr

/-- The validity filter of `review_all_cells`:
`cell.text and len(cell.text.strip()) >= 2`. -/
def validCell (c : CellData) : Bool :=
  c.text ≠ "" && 2 ≤ (pyStrip c.text).length

/-- The grouping key `f"{cell.file_name}:{cell.sheet_name}"`. -/
def sheetKey (c : CellData) : String := c.file_name ++ ":" ++ c.sheet_name

/-- Append a cell to the group of its key, creating the group at the end
when the key is new (`defaultdict(list)` with insertion-ordered keys). -/
def addToGroup : List (String × List CellData) → String → CellData →
    List (String × List CellData)
  | [], k, c => [(k, [c])]
  | (k0, cs) :: rest, k, c =>
    if k0 == k then (k0, cs ++ [c]) :: rest
    else (k0, cs) :: addToGroup rest k c

/-- The raw `defaultdict` grouping of `_group_cells_by_sheet`. -/
def groupRaw (cells : List CellData) : List (String × List CellData) :=
  cells.foldl (fun gs c => addToGroup gs (sheetKey c) c) []

/-- Stable insertion of a group into a list sorted by ascending cell
count (a later-arriving group goes after equal-sized earlier ones, as in
Python's stable `sorted`). -/
def insertBySize (g : String × List CellData) :
    List (String × List CellData) → List (String × List CellData)
  | [] => [g]
  | h :: t =>
    if g.2.length < h.2.length then g :: h :: t else h :: insertBySize g t

/-- Stable sort by ascending cell count,
`sorted(sheet_groups.items(), key=lambda x: len(x[1]))`. -/
def sortBySize (l : List (String × List CellData)) :
    List (String × List CellData) :=
  l.foldl (fun acc g => insertBySize g acc) []

/-- Embeds `LLMReviewer._group_cells_by_sheet`. -/
def group_cells_by_sheet (cells : List CellData) :
    List (String × List CellData) :=
  sortBySize (groupRaw cells)

/-- Embeds `LLMReviewer._call_llm_for_cells`, abstracted over the external
text-generation service `oracle`: one call per non-empty batch.  The
second component counts calls issued. -/
def call_llm_for_cells (oracle : List CellData → List LLMReviewResponse)
    (cells : List CellData) : List LLMReviewResponse × Nat :=
  if cells.isEmpty then ([], 0) else (oracle cells, 1)

/-- Embeds `LLMReviewer.review_all_cells`: filter valid cells, group by sheet,
process groups in ascending size order, one call per group; returns the
concatenated responses and the number of external calls issued. -/
def review_all_cells (oracle : List CellData → List LLMReviewResponse)
    (cells : List CellData) : List LLMReviewResponse × Nat :=
  let valid := cells.filter validCell
  if valid.isEmpty then ([], 0)
  else
    (group_cells_by_sheet valid).foldl
      (fun acc g =>
        let (rs, n) := call_llm_for_cells oracle g.2
        (acc.1 ++ rs, acc.2 + n))
      ([], 0)

/-- One element of the JSON array parsed from a batch response, as read
with `item.get(...)`.  `none` is an absent key.  For `suggested_fix` the
JSON `null` (Python `None`) is distinct from an absent key, because the
code defaults an absent key to `""`: `none` = absent, `some none` = null,
`some (some s)` = a string.  For `canonical` absent and null coincide
(both default to `None`). -/
structure RespItem where
  item_index : Option Int
  issue_type : Option String
  confidence : Option ℚ
  original : Option String
  suggested_fix : Option (Option String)
  canonical : Option String
  reason : Option String
deriving DecidableEq, Repr

/-- Python truthiness of the `canonical` value: a non-empty string. -/
def canonicalTruthy : Option String → Bool
  | some s => s ≠ ""
  | none => false

/-- Embeds `suggested_fix = item.get("suggested_fix", "")`: an absent key
defaults to the empty string, an explicit `null` stays `None`. -/
def respSuggestedFix (item : RespItem) : Option String :=
  match item.suggested_fix with
  | none => some ""
  | some v => v

/-- The keep condition of the loop in `_parse_cell_batch_response`:
issue type `typo` or `variant`, confidence ≥ 0.7, zero-based index within
the batch, and the suggested fix differs from the original text. -/
def keptItem (cells : List CellData) (item : RespItem) : Bool :=
  let idx : Int := item.item_index.getD 1 - 1
  let it := item.issue_type.getD "none"
  let conf := item.confidence.getD 0
  (it == "typo" || it == "variant") && decide ((0.7 : ℚ) ≤ conf) &&
    decide (0 ≤ idx) && decide (idx < (cells.length : Int)) &&
    !(respSuggestedFix item == some (item.original.getD ""))

/-- The response built for a kept item: `variant` is forced when the
canonical is truthy, and the batch cell at the item's zero-based index is
back-referenced. -/
def mkCellResponse (cells : List CellData) (item : RespItem) :
    LLMReviewResponse :=
  let idx : Int := item.item_index.getD 1 - 1
  { issue_type :=
      if canonicalTruthy item.canonical then "variant"
      else item.issue_type.getD "none"
    original := item.original.getD ""
    suggested_fix := respSuggestedFix item
    canonical := item.canonical
    reason := item.reason.getD ""
    confidence := item.confidence.getD 0
    source_cell := some (cells.getD idx.toNat default) }

/-- The item loop of `LLMReviewer._parse_cell_batch_response`, applied to
the already-parsed JSON array (`parsed_items`): keep an item exactly when
`issue_type ∈ {typo, variant}`, `confidence ≥ 0.7` and the zero-based
`item_index` lies within the batch, drop it when the suggested fix equals
the original text, force `variant` when a truthy canonical is present,
and back-reference the batch cell at the index (in the source the bound
check precedes the access, so `getD` never sees an out-of-range index). -/
def parse_cell_batch_items (items : List RespItem) (cells : List CellData) :
    List LLMReviewResponse :=
  match items with
  | [] => []
  | item :: rest =>
    let idx : Int := item.item_index.getD 1 - 1
    let issue_type := item.issue_type.getD "none"
    let confidence := item.confidence.getD 0
    if (issue_type == "typo" || issue_type == "variant") &&
        decide ((0.7 : ℚ) ≤ confidence) && decide (0 ≤ idx) &&
        decide (idx < (cells.length : Int)) then
      if respSuggestedFix item == some (item.original.getD "") then
        parse_cell_batch_items rest cells
      else
        mkCellResponse cells item :: parse_cell_batch_items rest cells
    else parse_cell_batch_items rest cells

end LLMReview

section Merge

/-! ## `main.py` — `_merge_detection_results` -/

/-- A value of the merged map: a mechanical `DetectionResult` or a model
`LLMReviewResponse`. -/
abbrev MergedR := DetectionResult ⊕ LLMReviewResponse

/-- Embeds `create_mechanical_key`:
`f"{file_name}:{sheet_name}:{cell_address}:{original}"`. -/
def create_mechanical_key (r : DetectionResult) : String :=
  r.file_name ++ ":" ++ r.sheet_name ++ ":" ++ r.cell_address ++ ":" ++
    r.original

/-- The merge key a finding derived from a given cell record carries. -/
def cellKey (c : CellData) (original : String) : String :=
  c.file_name ++ ":" ++ c.sheet_name ++ ":" ++ c.cell_address ++ ":" ++
    original

/-- Embeds `create_llm_key`: the key of the back-referenced cell, or the
degraded placeholder `f"unknown:unknown:unknown:{original}"` when the
back reference is absent. -/
def create_llm_key (r : LLMReviewResponse) : String :=
  match r.source_cell with
  | some c => cellKey c r.original
  | none => "unknown:unknown:unknown:" ++ r.original

/-- The issue type of a merged value. -/
def issueTypeOf : MergedR → String
  | Sum.inl m => m.issue_type
  | Sum.inr l => l.issue_type

/-- Lookup in the insertion-ordered merged map. -/
def dlookup (m : List (String × MergedR)) (k : String) : Option MergedR :=
  (m.find? (fun p => p.1 == k)).map (·.2)

/-- Python-dict assignment on the insertion-ordered merged map: an
existing key keeps its position and gets the new value, a new key goes to
the end. -/
def dinsert (m : List (String × MergedR)) (k : String) (v : MergedR) :
    List (String × MergedR) :=
  if m.any (fun p => p.1 == k) then
    m.map (fun p => if p.1 == k then (k, v) else p)
  else m ++ [(k, v)]

/-- Embeds `ExcelTypoDetector._merge_detection_results`: insert mechanical
findings, then fold model findings with the variant-to-typo override
rule; output the values in map order. -/
def merge_detection_results (mech : List DetectionResult)
    (llm : List LLMReviewResponse) : List MergedR :=
  let m1 := mech.foldl
    (fun m r => dinsert m (create_mechanical_key r) (Sum.inl r)) []
  let m2 := llm.foldl
    (fun m r =>
      let k := create_llm_key r
      match dlookup m k with
      | some existing =>
        if issueTypeOf existing == "variant" && r.issue_type == "typo" then
          dinsert m k (Sum.inr r)
        else m
      | none => dinsert m k (Sum.inr r))
    m1
  m2.map (·.2)

/-- The reconciliation state of the specification: the first-seen key
order and a keyed table of the currently selected finding. -/
structure SpecMergeState where
  keys : List String
  table : String → Option MergedR

/-- Insertion as the specification describes it: the key is appended to
the first-seen order when new, and the table entry for the key becomes
the given finding. -/
def specInsert (st : SpecMergeState) (k : String) (v : MergedR) :
    SpecMergeState :=
  { keys := if (st.table k).isSome then st.keys else st.keys ++ [k]
    table := fun q => if q == k then some v else st.table q }

/-- Modelled from the spec: the Result Reconciler algorithm in the
specification's words — insert all mechanical findings first; for each
model finding, insert it when its key is new, replace the existing
finding exactly when the existing issue kind is `variant` and the
incoming one is `typo`, and keep the existing finding in every other
collision; output in first-seen insertion order. -/
def mergeSpec (mech : List DetectionResult) (llm : List LLMReviewResponse) :
    List MergedR :=
  let st1 := mech.foldl
    (fun st r => specInsert st (create_mechanical_key r) (Sum.inl r))
    ⟨[], fun _ => none⟩
  let st2 := llm.foldl
    (fun st r =>
      let k := create_llm_key r
      match st.table k with
      | some existing =>
        if issueTypeOf existing == "variant" && r.issue_type == "typo" then
          specInsert st k (Sum.inr r)
        else st
      | none => specInsert st k (Sum.inr r))
    st1
  st2.keys.filterMap st2.table

end Merge

section Helpers

/-! ## General helper lemmas -/

theorem string_data_inj {a b : String} (h : a.data = b.data) : a = b := by
  cases a; cases b; simp only at h; rw [h]

theorem string_ne_empty_of_data {a : String} (h : a.data ≠ []) : a ≠ "" := by
  intro hc; exact h (by rw [hc])

end Helpers

section TermExtraction

/-! ## Term extraction (claim C9) -/

theorem classRunsAux_mem {cls : Char → Bool} :
    ∀ (l cur : List Char), cur.all cls = true →
      ∀ r ∈ classRunsAux cls cur l, r ≠ [] ∧ r.all cls = true := by
  intro l
  induction l with
  | nil =>
    intro cur hcur r hr
    simp only [classRunsAux] at hr
    split at hr
    · simp at hr
    · next h =>
      simp only [List.mem_singleton] at hr
      subst hr
      refine ⟨?_, by simpa using hcur⟩
      intro hc
      rw [List.isEmpty_iff] at h
      exact h (by simpa using congrArg List.reverse hc)
  | cons c rest ih =>
    intro cur hcur r hr
    simp only [classRunsAux] at hr
    by_cases hc : cls c
    · rw [if_pos hc] at hr
      exact ih (c :: cur) (by simp [hc, hcur]) r hr
    · rw [if_neg hc] at hr
      by_cases he : cur.isEmpty
      · rw [if_pos he] at hr
        exact ih [] rfl r hr
      · rw [if_neg he] at hr
        rcases List.mem_cons.mp hr with hr | hr
        · subst hr
          refine ⟨?_, by simpa using hcur⟩
          intro hcon
          rw [List.isEmpty_iff] at he
          exact he (by simpa using congrArg List.reverse hcon)
        · exact ih [] rfl r hr

theorem classRuns_mem {cls : Char → Bool} {l : List Char} {r : List Char}
    (h : r ∈ classRuns cls l) : r ≠ [] ∧ r.all cls = true :=
  classRunsAux_mem l [] rfl r h

theorem hira_sub_allowed (c : Char) (h : hiraClass c = true) :
    allowedChar c = true := by
  simp only [hiraClass, decide_eq_true_eq] at h
  simp only [allowedChar, Bool.or_eq_true, decide_eq_true_eq]
  omega

theorem kata_sub_allowed (c : Char) (h : kataClass c = true) :
    allowedChar c = true := by
  simp only [kataClass, Bool.or_eq_true, decide_eq_true_eq] at h
  simp only [allowedChar, Bool.or_eq_true, decide_eq_true_eq]
  omega

theorem hkata_sub_allowed (c : Char) (h : hkataClass c = true) :
    allowedChar c = true := by
  simp only [hkataClass, decide_eq_true_eq] at h
  simp only [allowedChar, Bool.or_eq_true, decide_eq_true_eq]
  omega

theorem kanji_sub_allowed (c : Char) (h : kanjiClass c = true) :
    allowedChar c = true := by
  simp only [kanjiClass, decide_eq_true_eq] at h
  simp only [allowedChar, Bool.or_eq_true, decide_eq_true_eq]
  omega

theorem alnum_sub_allowed (c : Char) (h : alnumClass c = true) :
    allowedChar c = true := by
  simp only [alnumClass, Bool.or_eq_true, decide_eq_true_eq] at h
  simp only [allowedChar, Bool.or_eq_true, decide_eq_true_eq]
  omega

theorem componentTerms_mem {s text : String} (h : s ∈ componentTerms text) :
    s ≠ "" ∧ s.data.all allowedChar = true := by
  simp only [componentTerms, List.mem_flatMap, List.mem_map,
    List.mem_filter] at h
  obtain ⟨cls, hcls, r, ⟨hr, _⟩, rfl⟩ := h
  obtain ⟨hne, hall⟩ := classRuns_mem hr
  have hdata : (String.mk r).data = r := rfl
  have hsub : ∀ c, cls c = true → allowedChar c = true := by
    simp only [List.mem_cons, List.not_mem_nil, or_false] at hcls
    rcases hcls with rfl | rfl | rfl | rfl | rfl
    · exact hira_sub_allowed
    · exact kata_sub_allowed
    · exact hkata_sub_allowed
    · exact kanji_sub_allowed
    · exact alnum_sub_allowed
  refine ⟨string_ne_empty_of_data (by rw [hdata]; exact hne), ?_⟩
  rw [hdata, List.all_eq_true] at *
  intro c hc
  exact hsub c (hall c hc)

end TermExtraction

/-- The allowed character set exactly as the claim lists it: hiragana,
full-width katakana, half-width katakana, CJK ideographs, latin letters
and digits, middle-dot, hyphen, and the long-vowel mark — and nothing
else (in particular, no underscore).  Stated from the specification's
words for comparison with `allowedChar`, which is read off the source
regex. -/
def specAllowedChar (c : Char) : Bool :=
  (0x3041 ≤ c.toNat ∧ c.toNat ≤ 0x3093) ||
  (0x30a1 ≤ c.toNat ∧ c.toNat ≤ 0x30f6) ||
  (0xff66 ≤ c.toNat ∧ c.toNat ≤ 0xff9f) ||
  (0x4e00 ≤ c.toNat ∧ c.toNat ≤ 0x9faf) ||
  (97 ≤ c.toNat ∧ c.toNat ≤ 122) || (65 ≤ c.toNat ∧ c.toNat ≤ 90) ||
  (48 ≤ c.toNat ∧ c.toNat ≤ 57) ||
  c.toNat = 0x30fb || c.toNat = 45 || c.toNat = 0x30fc

/-- C9 as stated is false: the cell text `"A_B"` is kept whole as a
candidate term by `_extract_terms` although the underscore lies outside
the claim's allowed character set. -/
theorem C9_counterexample :
    "A_B" ∈ extract_terms "A_B" ∧
      "A_B".data.all specAllowedChar = false := by
  constructor
  · simp [extract_terms, pyStrip, pyStripL, matchesClassPlus]
    decide
  · decide

/-- C9 (amended): the Term Extractor keeps the whole trimmed cell text as
a candidate term if and only if it is nonempty and consists entirely of
the allowed character set — which, beyond the characters the claim lists,
also contains the underscore (`allowedChar`, read off the source regex
`[ぁ-んァ-ヶｦ-ﾟ一-龯a-zA-Z0-9・\-_ー]+$`). -/
theorem C9_whole_text_kept_iff (text : String) :
    pyStrip text ∈ extract_terms text ↔
      (pyStrip text ≠ "" ∧ (pyStrip text).data.all allowedChar = true) := by
  constructor
  · intro h
    rcases List.mem_append.mp h with h | h
    · by_cases hm : matchesClassPlus allowedChar (pyStrip text)
      · simp only [matchesClassPlus, Bool.and_eq_true, Bool.not_eq_true',
          List.isEmpty_eq_false] at hm
        exact ⟨string_ne_empty_of_data hm.1, hm.2⟩
      · rw [if_neg hm] at h
        simp at h
    · exact componentTerms_mem h
  · intro ⟨h1, h2⟩
    apply List.mem_append.mpr
    left
    have hm : matchesClassPlus allowedChar (pyStrip text) = true := by
      simp only [matchesClassPlus, Bool.and_eq_true, Bool.not_eq_true',
        List.isEmpty_eq_false]
      refine ⟨?_, h2⟩
      intro hc
      exact h1 (string_data_inj (by rw [hc]))
    rw [if_pos hm]
    exact List.mem_singleton.mpr rfl

/-- Witness for `C9_whole_text_kept_iff` at a concrete input. -/
theorem C9_whole_text_kept_iff_witness :
    "ユーザー" ∈ extract_terms "ユーザー" :=
  (C9_whole_text_kept_iff "ユーザー").mpr (by constructor <;> decide)

section FindingSynthesis

/-! ## Finding synthesis (claims C4, C5) -/

theorem resolved_flatMap_length (c : String) :
    ∀ vs : List (String × List TermOccurrence),
      (vs.flatMap (fun p =>
        if p.1 ≠ c then p.2.map (fun occ => mkVariantFinding occ p.1 c)
        else [])).length =
      ((vs.filter (fun p => p.1 ≠ c)).map (fun p => p.2.length)).sum := by
  intro vs
  induction vs with
  | nil => rfl
  | cons p rest ih =>
    by_cases hp : p.1 ≠ c
    · rw [List.flatMap_cons, List.length_append, ih, if_pos hp,
        List.filter_cons, if_pos (by simpa using hp), List.map_cons,
        List.sum_cons, List.length_map]
    · rw [List.flatMap_cons, List.length_append, ih, if_neg hp,
        List.filter_cons, if_neg (by simpa using hp), List.length_nil,
        Nat.zero_add]

/-- C4: for an inconsistency group with resolved canonical `C` (a truthy
canonical, i.e. nonempty), the synthesizer emits exactly one finding per
occurrence whose surface form differs from `C` — the count equals the
total number of such occurrences and every such occurrence's finding is
present — each emitted finding has `issue_kind = variant`,
`suggested_fix = C`, `confidence = 0.90`, and no finding is emitted for
an occurrence whose surface form equals `C` (every emitted original
differs from `C`). -/
theorem C4_resolved_per_occurrence (term c : String)
    (vs : List (String × List TermOccurrence)) (hC : c ≠ "") :
    (generateForGroup (term, ⟨vs, some c⟩)).length =
      ((vs.filter (fun p => p.1 ≠ c)).map (fun p => p.2.length)).sum
    ∧ (∀ f ∈ generateForGroup (term, ⟨vs, some c⟩),
        f.issue_type = "variant" ∧ f.suggested_fix = some c ∧
          f.confidence = 0.90 ∧ f.original ≠ c)
    ∧ (∀ p ∈ vs, p.1 ≠ c → ∀ occ ∈ p.2,
        mkVariantFinding occ p.1 c ∈ generateForGroup (term, ⟨vs, some c⟩)) := by
  have hg : generateForGroup (term, ⟨vs, some c⟩) =
      vs.flatMap (fun p =>
        if p.1 ≠ c then p.2.map (fun occ => mkVariantFinding occ p.1 c)
        else []) := by
    simp [generateForGroup, hC]
  refine ⟨by rw [hg]; exact resolved_flatMap_length c vs, ?_, ?_⟩
  · intro f hf
    rw [hg] at hf
    obtain ⟨p, hp, hf⟩ := List.mem_flatMap.mp hf
    by_cases hpc : p.1 ≠ c
    · rw [if_pos hpc] at hf
      obtain ⟨occ, _, rfl⟩ := List.mem_map.mp hf
      exact ⟨rfl, rfl, rfl, hpc⟩
    · rw [if_neg hpc] at hf
      simp at hf
  · intro p hp hpc occ hocc
    rw [hg]
    exact List.mem_flatMap.mpr ⟨p, hp, by
      rw [if_pos hpc]; exact List.mem_map.mpr ⟨occ, hocc, rfl⟩⟩

/-- Witness for `C4_resolved_per_occurrence` at a concrete group. -/
theorem C4_resolved_per_occurrence_witness :
    (generateForGroup ("ユーザ",
      ⟨[("ユーザ", [⟨"a.xlsx", "S1", "A1", 1, 1, "ユーザ"⟩]),
        ("ユーザー", [⟨"b.xlsx", "S1", "B2", 2, 2, "ユーザー"⟩])],
        some "ユーザー"⟩)).length = 1 :=
  ((C4_resolved_per_occurrence "ユーザ" "ユーザー"
    [("ユーザ", [⟨"a.xlsx", "S1", "A1", 1, 1, "ユーザ"⟩]),
     ("ユーザー", [⟨"b.xlsx", "S1", "B2", 2, 2, "ユーザー"⟩])]
    (by decide)).1).trans (by decide)

/-- C5: for an inconsistency group with no resolvable canonical, the
synthesizer emits exactly one finding regardless of the occurrence count,
anchored at the first-encountered occurrence (the first occurrence of the
first variant), with `issue_kind = variant`, no suggested fix,
`confidence = 0.85`, and a rationale listing the first five
`location(surface_form)` pairs of the full occurrence list followed by a
trailing ` などN箇所` count marker exactly when more than five locations
exist (`locationsStr`). -/
theorem C5_unresolved_single_finding (term v0 : String)
    (occ0 : TermOccurrence) (orest : List TermOccurrence)
    (rest : List (String × List TermOccurrence)) :
    generateForGroup (term, ⟨(v0, occ0 :: orest) :: rest, none⟩) =
      [{ file_name := occ0.file_name
         sheet_name := occ0.sheet_name
         cell_address := occ0.cell_address
         row := occ0.row
         column := occ0.column
         original := v0
         suggested_fix := none
         issue_type := "variant"
         reason := "表記が統一されていません。出現箇所: " ++
           locationsStr (locationsOf ((v0, occ0 :: orest) :: rest))
         confidence := 0.85
         canonical := none }]
    ∧ (generateForGroup (term, ⟨(v0, occ0 :: orest) :: rest, none⟩)).length
        = 1 := by
  constructor
  · rfl
  · rfl

end FindingSynthesis

section JsonRepairClaims

/-! ## JSON repair (claim C2) -/

/-- C2 as stated is false: the response `[\x7b"a": 1,` is truncated
mid-object (it ends with a dangling open brace inside an open array), yet
the repaired document `[\x7b"a": 1]\x7d` does not parse as JSON — the
single closing bracket is appended before the closing braces, closing the
array before the object it contains. -/
theorem C2_counterexample :
    repair_json "[\x7b\"a\": 1," = "[\x7b\"a\": 1]\x7d" ∧
      jsonParses (repair_json "[\x7b\"a\": 1,") = false ∧
      jsonParses "[\x7b\"a\": 1," = false := by
  refine ⟨by decide, by decide, by decide⟩

/-- C2 (amended): the JSON repair function returns any well-formed input
unchanged; on an input truncated mid-object it appends one closing
bracket (when the bracket balance is positive) and then brace-balance
closing braces, which yields a document that parses successfully when the
dangling object is at top level (no enclosing unclosed array), as in
`\x7b"a": 1,` ↦ `\x7b"a": 1\x7d` — but not necessarily when the truncated
object lies inside an unclosed array. -/
theorem C2_repair_noop_and_toplevel (s : String) :
    (jsonParses s = true → repair_json s = s) ∧
      repair_json "\x7b\"a\": 1," = "\x7b\"a\": 1\x7d" ∧
      jsonParses "\x7b\"a\": 1\x7d" = true := by
  refine ⟨?_, by decide, by decide⟩
  intro h
  simp [repair_json, h]

/-- Witness for `C2_repair_noop_and_toplevel` at a concrete well-formed
input. -/
theorem C2_repair_noop_and_toplevel_witness :
    jsonParses "[1, 2]" = true ∧ repair_json "[1, 2]" = "[1, 2]" :=
  ⟨by decide, (C2_repair_noop_and_toplevel "[1, 2]").1 (by decide)⟩

end JsonRepairClaims

section PlaceholderKey

/-! ## Degraded placeholder merge keys (claim C8) -/

theorem takeWhile_append_break (p : Char → Bool) :
    ∀ l1 l2 : List Char, l1.any (fun c => !p c) = true →
      (l1 ++ l2).takeWhile p = l1.takeWhile p := by
  intro l1
  induction l1 with
  | nil => intro l2 h; simp at h
  | cons c t ih =>
    intro l2 h
    rw [List.cons_append, List.takeWhile_cons, List.takeWhile_cons]
    by_cases hc : p c = true
    · rw [if_pos hc, if_pos hc]
      have ht : t.any (fun c => !p c) = true := by
        rcases List.any_eq_true.mp h with ⟨d, hd, hpd⟩
        rcases List.mem_cons.mp hd with rfl | hd
        · rw [hc] at hpd; simp at hpd
        · exact List.any_eq_true.mpr ⟨d, hd, hpd⟩
      rw [ih l2 ht]
    · rw [if_neg hc, if_neg hc]

theorem takeWhile_append_all (p : Char → Bool) :
    ∀ l1 l2 : List Char, l1.all p = true →
      (l1 ++ l2).takeWhile p = l1 ++ l2.takeWhile p := by
  intro l1
  induction l1 with
  | nil => intro l2 _; simp
  | cons c t ih =>
    intro l2 h
    rw [List.all_cons, Bool.and_eq_true] at h
    rw [List.cons_append, List.takeWhile_cons, if_pos h.1, List.cons_append,
      ih l2 h.2]

/-- The character is not the merge-key separator. -/
def notColon (c : Char) : Bool := !(c == ':')

/-- The file name contains no colon (the merge-key separator). -/
def colonFree (s : String) : Bool := s.data.all notColon

/-- C8 as stated is false: the degraded placeholder key of a model
finding without a back-referenced cell coincides with the merge key of a
mechanical finding derived from the legitimate cell record
`("unknown", "unknown", "unknown")` holding the term `ユーザ`. -/
theorem C8_counterexample :
    create_llm_key
        { issue_type := "typo", original := "ユーザ",
          suggested_fix := some "ユーザー", canonical := none,
          reason := "", confidence := 0.8, source_cell := none } =
      create_mechanical_key
        (mkVariantFinding
          ⟨"unknown", "unknown", "unknown", 1, 1, "ユーザ"⟩
          "ユーザ" "ユーザー") := by
  decide

/-- C8 (amended): the degraded placeholder key
`unknown:unknown:unknown:original` cannot collide with the merge key of a
finding derived from a cell record whose `file_name` contains no colon
and differs from `"unknown"`; collisions are possible exactly for records
whose key also renders with the `unknown:unknown:unknown:` prefix (see
`C8_counterexample`). -/
theorem C8_placeholder_key_no_collision (r : LLMReviewResponse)
    (c : CellData) (orig : String) (hr : r.source_cell = none)
    (h1 : colonFree c.file_name = true) (h2 : c.file_name ≠ "unknown") :
    create_llm_key r ≠ cellKey c orig := by
  intro heq
  have hkey : create_llm_key r = "unknown:unknown:unknown:" ++ r.original := by
    rw [create_llm_key, hr]
  have hcolon : (":" : String).data = [':'] := rfl
  have hdata : "unknown:unknown:unknown:".data ++ r.original.data =
      c.file_name.data ++ ([':'] ++ (c.sheet_name.data ++ ([':'] ++
        (c.cell_address.data ++ ([':'] ++ orig.data))))) := by
    have := congrArg String.data (hkey ▸ heq)
    rwa [String.data_append, cellKey, String.data_append,
      String.data_append, String.data_append, String.data_append,
      String.data_append, String.data_append, hcolon,
      List.append_assoc, List.append_assoc, List.append_assoc,
      List.append_assoc, List.append_assoc] at this
  have hL : List.takeWhile notColon
      ("unknown:unknown:unknown:".data ++ r.original.data) =
      "unknown".data := by
    rw [takeWhile_append_break notColon _ _ (by decide)]
    decide
  have hR : List.takeWhile notColon
      (c.file_name.data ++ ([':'] ++ (c.sheet_name.data ++ ([':'] ++
        (c.cell_address.data ++ ([':'] ++ orig.data)))))) =
      c.file_name.data := by
    rw [takeWhile_append_all notColon _ _ h1, List.singleton_append,
      List.takeWhile_cons, if_neg (by decide)]
    exact List.append_nil _
  have htake := congrArg (List.takeWhile notColon) hdata
  rw [hL, hR] at htake
  exact h2 (string_data_inj htake.symm)

/-- Witness for `C8_placeholder_key_no_collision` at a concrete record. -/
theorem C8_placeholder_key_no_collision_witness :
    create_llm_key
        { issue_type := "typo", original := "x", suggested_fix := none,
          canonical := none, reason := "", confidence := 0.8,
          source_cell := none } ≠
      cellKey ⟨"a.xlsx", "Sheet1", "A1", 1, 1, "x"⟩ "x" :=
  C8_placeholder_key_no_collision _ _ _ rfl (by decide) (by decide)

end PlaceholderKey

section CanonicalResolution

/-! ## Canonical resolution (claim C3) -/

/-- The dictionary as the claim describes it: both an exact-case entry
and a lower-cased entry for every `expected` and every `pattern`, each
mapping to `expected`.  Stated from the specification's words for
comparison with `load_canonical_rules`, which writes only the lower-cased
keys. -/
def specLoadCanonicalRules (rules : List CanonRule) :
    List (String × String) :=
  rules.foldl
    (fun m r =>
      (m ++ [(r.expected, r.expected), (pyLower r.expected, r.expected)]) ++
        r.patterns.flatMap (fun p => [(p, r.expected), (pyLower p, r.expected)]))
    []

/-- C3 as stated is false: with the dictionary rule
`{expected: "Excel", patterns: []}` and an inconsistency group keyed
`"Excel"` whose variant list matches nothing, the source resolves no
canonical (only the lower-cased key `"excel"` exists, and the term lookup
is exact-case only), while the claim's dictionary — which also contains
the exact-case entry — resolves `"Excel"`. -/
theorem C3_counterexample :
    get_canonical_form (load_canonical_rules [⟨"Excel", []⟩]) "Excel"
        ["Excelシート"] = none ∧
      get_canonical_form (specLoadCanonicalRules [⟨"Excel", []⟩]) "Excel"
        ["Excelシート"] = some "Excel" := by
  exact ⟨by decide, by decide⟩

/-- One rule accounts for the dictionary entry `(k, v)`: `v` is the
rule's `expected` and `k` is the lower-casing of the `expected` or of one
of its patterns. -/
def ruleAccountsFor (k v : String) (r : CanonRule) : Bool :=
  v == r.expected &&
    (k == pyLower r.expected || r.patterns.any (fun p => k == pyLower p))

theorem load_canonical_rules_mem_aux :
    ∀ (rules : List CanonRule) (acc : List (String × String)) (k v : String),
      (k, v) ∈ rules.foldl
        (fun m r =>
          (m ++ [(pyLower r.expected, r.expected)]) ++
            r.patterns.map (fun p => (pyLower p, r.expected))) acc →
      (k, v) ∈ acc ∨ rules.any (ruleAccountsFor k v) = true := by
  intro rules
  induction rules with
  | nil => intro acc k v h; exact Or.inl h
  | cons r rest ih =>
    intro acc k v h
    rw [List.foldl_cons] at h
    rcases ih _ k v h with hmem | hany
    · rcases List.mem_append.mp hmem with hmem | hmem
      · rcases List.mem_append.mp hmem with hmem | hmem
        · exact Or.inl hmem
        · refine Or.inr ?_
          rw [List.mem_singleton, Prod.mk.injEq] at hmem
          rw [List.any_cons, Bool.or_eq_true]
          exact Or.inl (by
            simp [ruleAccountsFor, hmem.1, hmem.2])
      · refine Or.inr ?_
        obtain ⟨p, hp, hkv⟩ := List.mem_map.mp hmem
        rw [Prod.mk.injEq] at hkv
        rw [List.any_cons, Bool.or_eq_true]
        refine Or.inl ?_
        simp only [ruleAccountsFor, Bool.and_eq_true, Bool.or_eq_true]
        refine ⟨by simp [hkv.2], Or.inr ?_⟩
        exact List.any_eq_true.mpr ⟨p, hp, by simp [hkv.1]⟩
    · exact Or.inr (by rw [List.any_cons, Bool.or_eq_true]; exact Or.inr hany)

/-- C3 (amended): canonical resolution follows the stated priority —
(1) the first variant with a dictionary hit, looked up exactly and then
ASCII-lower-cased, wins; (2) otherwise the term key is looked up, but
exactly only (no case-insensitive retry); (3) otherwise none — and the
dictionary carries a lower-cased index only: every key of
`load_canonical_rules` is the lower-casing of an `expected` or of a
`pattern` (exact-case keys exist only for terms that equal their own
lower-casing, so a term key containing upper-case ASCII never matches in
step (2)). -/
theorem C3_canonical_resolution_amended :
    (∀ (m : List (String × String)) (term : String) (variants : List String),
      get_canonical_form m term variants =
        match variants.findSome? (fun v =>
          match rulesLookup m v with
          | some c => some c
          | none => rulesLookup m (pyLower v)) with
        | some c => some c
        | none => rulesLookup m term) ∧
    (∀ (rules : List CanonRule) (k v : String),
      (k, v) ∈ load_canonical_rules rules →
        rules.any (ruleAccountsFor k v) = true) := by
  constructor
  · intro m term variants
    induction variants with
    | nil =>
      rw [get_canonical_form, List.findSome?_nil]
      cases rulesLookup m term <;> rfl
    | cons v rest ih =>
      rw [get_canonical_form, List.findSome?_cons]
      cases hv : rulesLookup m v with
      | some c => rfl
      | none =>
        cases hlv : rulesLookup m (pyLower v) with
        | some c => rfl
        | none => exact ih
  · intro rules k v h
    rcases load_canonical_rules_mem_aux rules [] k v h with hmem | hany
    · simp at hmem
    · exact hany

/-- Witness for `C3_canonical_resolution_amended` at a concrete
dictionary. -/
theorem C3_canonical_resolution_amended_witness :
    ([(⟨"ユーザー", ["ユーザ"]⟩ : CanonRule)].any
      (ruleAccountsFor "ユーザ" "ユーザー")) = true :=
  C3_canonical_resolution_amended.2 [⟨"ユーザー", ["ユーザ"]⟩] "ユーザ"
    "ユーザー" (by decide)

end CanonicalResolution
section BatchParsing

/-! ## Batch-response item parsing (claims C7, C10) -/

theorem parse_items_filter_map (items : List RespItem)
    (cells : List CellData) :
    parse_cell_batch_items items cells =
      (items.filter (keptItem cells)).map (mkCellResponse cells) := by
  induction items with
  | nil => rfl
  | cons item rest ih =>
    simp only [parse_cell_batch_items]
    by_cases hA : ((item.issue_type.getD "none" == "typo" ||
        item.issue_type.getD "none" == "variant") &&
        decide ((0.7 : ℚ) ≤ item.confidence.getD 0) &&
        decide (0 ≤ item.item_index.getD 1 - 1) &&
        decide (item.item_index.getD 1 - 1 < (cells.length : Int))) = true
    · by_cases hB : (respSuggestedFix item ==
          some (item.original.getD "")) = true
      · have hk : keptItem cells item = false := by
          simp only [keptItem]
          rw [hA, hB]
          rfl
        rw [if_pos hA, if_pos hB, ih, List.filter_cons,
          if_neg (by simp [hk])]
      · have hB2 : (respSuggestedFix item ==
            some (item.original.getD "")) = false :=
          Bool.eq_false_iff.mpr hB
        have hk : keptItem cells item = true := by
          simp only [keptItem]
          rw [hA, hB2]
          rfl
        rw [if_pos hA, if_neg hB, ih, List.filter_cons, if_pos hk,
          List.map_cons]
    · have hA2 : ((item.issue_type.getD "none" == "typo" ||
          item.issue_type.getD "none" == "variant") &&
          decide ((0.7 : ℚ) ≤ item.confidence.getD 0) &&
          decide (0 ≤ item.item_index.getD 1 - 1) &&
          decide (item.item_index.getD 1 - 1 < (cells.length : Int)))
          = false := Bool.eq_false_iff.mpr hA
      have hk : keptItem cells item = false := by
        simp only [keptItem]
        rw [hA2]
        rfl
      rw [if_neg hA, ih, List.filter_cons, if_neg (by simp [hk])]

end BatchParsing

/-- C7: a parsed batch-response item is kept if and only if its issue
kind is `typo` or `variant`, its confidence is ≥ 0.7, its zero-based
index resolves within the batch, and its suggested fix does not equal its
original text (`keptItem`); the parsed output is exactly the kept items
in order, and the response built for an item carrying a truthy (non-empty)
canonical has `issue_kind = variant` regardless of the reported kind. -/
theorem C7_parse_filter (items : List RespItem) (cells : List CellData) :
    parse_cell_batch_items items cells =
      (items.filter (keptItem cells)).map (mkCellResponse cells)
    ∧ ∀ item : RespItem, canonicalTruthy item.canonical = true →
        (mkCellResponse cells item).issue_type = "variant" := by
  refine ⟨parse_items_filter_map items cells, ?_⟩
  intro item h
  simp [mkCellResponse, h]

/-- Witness for `C7_parse_filter` at a concrete item with a non-empty
canonical and reported kind `typo`. -/
theorem C7_parse_filter_witness :
    (mkCellResponse [⟨"a.xlsx", "S1", "A1", 1, 1, "データ・ベース"⟩]
      ⟨some 1, some "typo", some 0.8, some "データ・ベース",
        some (some "データベース"), some "データベース", none⟩).issue_type
      = "variant" :=
  (C7_parse_filter
    [⟨some 1, some "typo", some 0.8, some "データ・ベース",
      some (some "データベース"), some "データベース", none⟩]
    [⟨"a.xlsx", "S1", "A1", 1, 1, "データ・ベース"⟩]).2
    ⟨some 1, some "typo", some 0.8, some "データ・ベース",
      some (some "データベース"), some "データベース", none⟩ (by decide)

/-- C10: when the parsed items all lack an `item_index`, every produced
finding is anchored at the batch's first cell (the index defaults to 1,
i.e. zero-based 0), and an item passing the keep filter is still kept —
it is attributed rather than dropped. -/
theorem C10_missing_index_first_cell (items : List RespItem)
    (cells : List CellData)
    (hidx : ∀ item ∈ items, item.item_index = none) :
    (∀ resp ∈ parse_cell_batch_items items cells,
        resp.source_cell = some (cells.getD 0 default))
    ∧ (∀ item ∈ items, keptItem cells item = true →
        mkCellResponse cells item ∈ parse_cell_batch_items items cells) := by
  constructor
  · intro resp hresp
    rw [parse_items_filter_map] at hresp
    obtain ⟨item, hitem, rfl⟩ := List.mem_map.mp hresp
    have hnone : item.item_index = none :=
      hidx item (List.mem_of_mem_filter hitem)
    simp [mkCellResponse, hnone]
  · intro item hitem hkept
    rw [parse_items_filter_map]
    exact List.mem_map.mpr
      ⟨item, List.mem_filter.mpr ⟨hitem, hkept⟩, rfl⟩

/-- Witness for `C10_missing_index_first_cell`: an index-less item is
anchored at the first of two batch cells. -/
theorem C10_missing_index_first_cell_witness :
    mkCellResponse
        [⟨"a.xlsx", "S1", "A1", 1, 1, "感情科目"⟩,
         ⟨"a.xlsx", "S1", "B1", 1, 2, "備考"⟩]
        ⟨none, some "typo", some 0.8, some "感情科目",
          some (some "勘定科目"), none, none⟩ ∈
      parse_cell_batch_items
        [⟨none, some "typo", some 0.8, some "感情科目",
          some (some "勘定科目"), none, none⟩]
        [⟨"a.xlsx", "S1", "A1", 1, 1, "感情科目"⟩,
         ⟨"a.xlsx", "S1", "B1", 1, 2, "備考"⟩] :=
  (C10_missing_index_first_cell
    [⟨none, some "typo", some 0.8, some "感情科目",
      some (some "勘定科目"), none, none⟩]
    [⟨"a.xlsx", "S1", "A1", 1, 1, "感情科目"⟩,
     ⟨"a.xlsx", "S1", "B1", 1, 2, "備考"⟩]
    (by decide)).2
    ⟨none, some "typo", some 0.8, some "感情科目",
      some (some "勘定科目"), none, none⟩
    (List.mem_singleton.mpr rfl)
    (by simp only [keptItem, respSuggestedFix]; norm_num; decide)

section SheetBatching

/-! ## Sheet batching (claim C6) -/

theorem insertBySize_perm (g : String × List CellData) :
    ∀ l, (insertBySize g l).Perm (g :: l) := by
  intro l
  induction l with
  | nil => exact List.Perm.refl _
  | cons h t ih =>
    rw [insertBySize]
    by_cases hc : g.2.length < h.2.length
    · rw [if_pos hc]
    · rw [if_neg hc]
      exact (ih.cons h).trans (List.Perm.swap g h t)

theorem sortBySize_perm_aux :
    ∀ (l : List (String × List CellData)) (acc : List (String × List CellData)),
      (l.foldl (fun acc g => insertBySize g acc) acc).Perm (acc ++ l) := by
  intro l
  induction l with
  | nil => intro acc; simp
  | cons g t ih =>
    intro acc
    rw [List.foldl_cons]
    refine (ih (insertBySize g acc)).trans ?_
    refine (List.Perm.append_right t (insertBySize_perm g acc)).trans ?_
    exact (List.perm_middle).symm

theorem sortBySize_perm (l : List (String × List CellData)) :
    (sortBySize l).Perm l := by
  simpa using sortBySize_perm_aux l []

/-- Ascending order on groups by cell count. -/
def bySize (a b : String × List CellData) : Prop :=
  a.2.length ≤ b.2.length

theorem insertBySize_sorted (g : String × List CellData) :
    ∀ l, l.Pairwise bySize → (insertBySize g l).Pairwise bySize := by
  intro l
  induction l with
  | nil => intro _; simp [insertBySize, List.pairwise_singleton]
  | cons h t ih =>
    intro hp
    obtain ⟨hhd, ht⟩ := List.pairwise_cons.mp hp
    rw [insertBySize]
    by_cases hc : g.2.length < h.2.length
    · rw [if_pos hc]
      refine List.pairwise_cons.mpr ⟨?_, hp⟩
      intro b hb
      rcases List.mem_cons.mp hb with rfl | hb
      · exact Nat.le_of_lt hc
      · exact Nat.le_trans (Nat.le_of_lt hc) (hhd b hb)
    · rw [if_neg hc]
      refine List.pairwise_cons.mpr ⟨?_, ih ht⟩
      intro b hb
      have hb2 : b ∈ g :: t := (insertBySize_perm g t).mem_iff.mp hb
      rcases List.mem_cons.mp hb2 with rfl | hb2
      · exact Nat.le_of_not_lt hc
      · exact hhd b hb2

theorem sortBySize_sorted (l : List (String × List CellData)) :
    (sortBySize l).Pairwise bySize := by
  rw [sortBySize]
  have : ∀ acc : List (String × List CellData), acc.Pairwise bySize →
      (l.foldl (fun acc g => insertBySize g acc) acc).Pairwise bySize := by
    induction l with
    | nil => intro acc h; exact h
    | cons g t ih =>
      intro acc h
      rw [List.foldl_cons]
      exact ih _ (insertBySize_sorted g acc h)
  exact this [] List.Pairwise.nil

theorem addToGroup_keys (k : String) (c : CellData) :
    ∀ gs : List (String × List CellData),
      (addToGroup gs k c).map Prod.fst =
        if k ∈ gs.map Prod.fst then gs.map Prod.fst
        else gs.map Prod.fst ++ [k] := by
  intro gs
  induction gs with
  | nil => simp [addToGroup]
  | cons g rest ih =>
    obtain ⟨k0, cs⟩ := g
    rw [addToGroup]
    by_cases hk : k0 == k
    · rw [if_pos hk]
      have : k ∈ ((k0, cs) :: rest).map Prod.fst := by
        simp only [List.map_cons, List.mem_cons]
        exact Or.inl (eq_of_beq hk).symm
      rw [if_pos this]
      simp
    · rw [if_neg (by simpa using hk)]
      have hkne : k0 ≠ k := by simpa using hk
      simp only [List.map_cons, ih]
      by_cases hmem : k ∈ rest.map Prod.fst
      · rw [if_pos hmem, if_pos (by simp [hmem])]
      · rw [if_neg hmem, if_neg (by simp [hmem, Ne.symm hkne])]
        simp

theorem addToGroup_nonempty (k : String) (c : CellData) :
    ∀ gs : List (String × List CellData),
      (∀ g ∈ gs, g.2 ≠ []) → ∀ g ∈ addToGroup gs k c, g.2 ≠ [] := by
  intro gs
  induction gs with
  | nil =>
    intro _ g hg
    rw [addToGroup] at hg
    rcases List.mem_singleton.mp hg with rfl
    simp
  | cons g0 rest ih =>
    intro hne g hg
    obtain ⟨k0, cs⟩ := g0
    rw [addToGroup] at hg
    by_cases hk : k0 == k
    · rw [if_pos hk] at hg
      rcases List.mem_cons.mp hg with heq | hg
      · rw [heq]
        simp
      · exact hne g (List.mem_cons_of_mem _ hg)
    · rw [if_neg (by simpa using hk)] at hg
      rcases List.mem_cons.mp hg with heq | hg
      · rw [heq]
        exact hne (k0, cs) (List.mem_cons_self _ _)
      · exact ih (fun g hg => hne g (List.mem_cons_of_mem _ hg)) g hg

end SheetBatching

section SheetBatchingCount

theorem addToGroup_keys_mem_iff (gs : List (String × List CellData))
    (k : String) (c : CellData) (q : String) :
    q ∈ (addToGroup gs k c).map Prod.fst ↔
      q ∈ gs.map Prod.fst ∨ q = k := by
  rw [addToGroup_keys]
  by_cases hm : k ∈ gs.map Prod.fst
  · rw [if_pos hm]
    constructor
    · exact Or.inl
    · rintro (h | rfl)
      · exact h
      · exact hm
  · rw [if_neg hm]
    simp

theorem addToGroup_keys_nodup (gs : List (String × List CellData))
    (k : String) (c : CellData) (h : (gs.map Prod.fst).Nodup) :
    ((addToGroup gs k c).map Prod.fst).Nodup := by
  rw [addToGroup_keys]
  by_cases hm : k ∈ gs.map Prod.fst
  · rwa [if_pos hm]
  · rw [if_neg hm]
    refine List.nodup_append.mpr ⟨h, List.nodup_singleton k, ?_⟩
    intro a ha hb
    rw [List.mem_singleton] at hb
    subst hb
    exact hm ha

theorem groupFold_nodup (cells : List CellData) :
    ∀ acc : List (String × List CellData), (acc.map Prod.fst).Nodup →
      ((cells.foldl (fun gs c => addToGroup gs (sheetKey c) c) acc).map
        Prod.fst).Nodup := by
  induction cells with
  | nil => intro acc h; exact h
  | cons c t ih =>
    intro acc h
    rw [List.foldl_cons]
    exact ih _ (addToGroup_keys_nodup acc (sheetKey c) c h)

theorem groupFold_mem (cells : List CellData) :
    ∀ (acc : List (String × List CellData)) (q : String),
      q ∈ (cells.foldl (fun gs c => addToGroup gs (sheetKey c) c) acc).map
          Prod.fst ↔
        q ∈ acc.map Prod.fst ∨ ∃ c ∈ cells, sheetKey c = q := by
  induction cells with
  | nil => intro acc q; simp
  | cons c t ih =>
    intro acc q
    rw [List.foldl_cons, ih, addToGroup_keys_mem_iff]
    constructor
    · rintro (⟨h | h⟩ | h)
      · exact Or.inl h
      · exact Or.inr ⟨c, List.mem_cons_self _ _, h.symm⟩
      · obtain ⟨d, hd, hdq⟩ := h
        exact Or.inr ⟨d, List.mem_cons_of_mem _ hd, hdq⟩
    · rintro (h | ⟨d, hd, hdq⟩)
      · exact Or.inl (Or.inl h)
      · rcases List.mem_cons.mp hd with rfl | hd
        · exact Or.inl (Or.inr hdq.symm)
        · exact Or.inr ⟨d, hd, hdq⟩

theorem groupFold_nonempty (cells : List CellData) :
    ∀ acc : List (String × List CellData), (∀ g ∈ acc, g.2 ≠ []) →
      ∀ g ∈ cells.foldl (fun gs c => addToGroup gs (sheetKey c) c) acc,
        g.2 ≠ [] := by
  induction cells with
  | nil => intro acc h; exact h
  | cons c t ih =>
    intro acc h
    rw [List.foldl_cons]
    exact ih _ (addToGroup_nonempty (sheetKey c) c acc h)

theorem review_fold_count
    (oracle : List CellData → List LLMReviewResponse) :
    ∀ (gs : List (String × List CellData))
      (acc : List LLMReviewResponse × Nat),
      (∀ g ∈ gs, g.2 ≠ []) →
      (gs.foldl (fun acc g =>
        let (rs, n) := call_llm_for_cells oracle g.2
        (acc.1 ++ rs, acc.2 + n)) acc).2 = acc.2 + gs.length := by
  intro gs
  induction gs with
  | nil => intro acc _; simp
  | cons g t ih =>
    intro acc hne
    rw [List.foldl_cons]
    have hg : g.2.isEmpty = false :=
      List.isEmpty_eq_false.mpr (hne g (List.mem_cons_self _ _))
    have hcall : call_llm_for_cells oracle g.2 = (oracle g.2, 1) := by
      rw [call_llm_for_cells, hg]
      rfl
    rw [hcall]
    rw [ih _ (fun g hg => hne g (List.mem_cons_of_mem _ hg))]
    simp
    omega

end SheetBatchingCount

/-- C6: the Model-Assisted Reviewer filters the valid cells (non-empty
text whose trimmed length is ≥ 2), groups them by the
`file_name:sheet_name` key, processes the groups in ascending order of
cell count, and issues exactly one external call per (necessarily
non-empty) group, so the total call count equals the number of distinct
sheet keys carrying at least one valid cell: the count equals the number
of groups, the groups are sorted by ascending size, every group is
non-empty, the group keys are pairwise distinct, and a key forms a group
exactly when some valid cell carries it. -/
theorem C6_one_call_per_sheet_group
    (oracle : List CellData → List LLMReviewResponse)
    (cells : List CellData) :
    (review_all_cells oracle cells).2 =
      (group_cells_by_sheet (cells.filter validCell)).length
    ∧ (group_cells_by_sheet (cells.filter validCell)).Pairwise bySize
    ∧ (∀ g ∈ group_cells_by_sheet (cells.filter validCell), g.2 ≠ [])
    ∧ ((group_cells_by_sheet (cells.filter validCell)).map Prod.fst).Nodup
    ∧ (∀ q, q ∈ (group_cells_by_sheet (cells.filter validCell)).map Prod.fst
        ↔ ∃ c ∈ cells.filter validCell, sheetKey c = q) := by
  have hperm := sortBySize_perm (groupRaw (cells.filter validCell))
  have hraw_ne : ∀ g ∈ groupRaw (cells.filter validCell), g.2 ≠ [] := by
    rw [groupRaw]
    exact groupFold_nonempty _ [] (by simp)
  have hne : ∀ g ∈ group_cells_by_sheet (cells.filter validCell),
      g.2 ≠ [] := by
    intro g hg
    exact hraw_ne g (hperm.mem_iff.mp hg)
  refine ⟨?_, sortBySize_sorted _, hne, ?_, ?_⟩
  · simp only [review_all_cells]
    by_cases hv : (cells.filter validCell).isEmpty
    · rw [if_pos hv]
      have hempty : cells.filter validCell = [] := by
        rwa [List.isEmpty_iff] at hv
      rw [hempty]
      rfl
    · rw [if_neg hv]
      rw [review_fold_count oracle _ ([], 0) hne]
      simp
  · exact (hperm.map Prod.fst).nodup_iff.mpr
      (groupFold_nodup _ [] (by simp))
  · intro q
    rw [group_cells_by_sheet]
    rw [(hperm.map Prod.fst).mem_iff]
    have := groupFold_mem (cells.filter validCell) [] q
    rw [groupRaw]
    rw [this]
    simp

/-- Witness for `C6_one_call_per_sheet_group`: two sheets worth of valid
cells issue exactly two calls. -/
theorem C6_one_call_per_sheet_group_witness :
    (review_all_cells (fun _ => [])
      [⟨"a.xlsx", "S1", "A1", 1, 1, "ユーザー管理"⟩,
       ⟨"a.xlsx", "S1", "A2", 2, 1, "ユーザ登録"⟩,
       ⟨"b.xlsx", "S1", "C1", 1, 3, "データベース"⟩]).2 = 2 :=
  ((C6_one_call_per_sheet_group (fun _ => [])
    [⟨"a.xlsx", "S1", "A1", 1, 1, "ユーザー管理"⟩,
     ⟨"a.xlsx", "S1", "A2", 2, 1, "ユーザ登録"⟩,
     ⟨"b.xlsx", "S1", "C1", 1, 3, "データベース"⟩]).1).trans (by decide)

section MergeClaims

/-! ## Result reconciliation (claim C1) -/

theorem sbeq_true {a b : String} (h : a = b) : (a == b) = true := by
  rw [h]
  exact beq_self_eq_true b

theorem sbeq_false {a b : String} (h : ¬a = b) : (a == b) = false := by
  rw [beq_eq_false_iff_ne]
  exact h

theorem sbeq_not_true {a b : String} (h : ¬a = b) : ¬((a == b) = true) := by
  rw [sbeq_false h]
  exact Bool.false_ne_true

theorem seq_of_beq {a b : String} (h : (a == b) = true) : a = b :=
  eq_of_beq h

theorem dlookup_nil (q : String) : dlookup [] q = none := rfl

theorem dlookup_cons (p : String × MergedR) (t : List (String × MergedR))
    (q : String) :
    dlookup (p :: t) q = if p.1 == q then some p.2 else dlookup t q := by
  by_cases h : p.1 = q
  · rw [dlookup,
      @List.find?_cons_of_pos _ (fun r => r.1 == q) p t (sbeq_true h),
      if_pos (sbeq_true h)]
    rfl
  · rw [dlookup,
      @List.find?_cons_of_neg _ (fun r => r.1 == q) p t (sbeq_not_true h),
      if_neg (sbeq_not_true h)]
    rfl

theorem dlookup_replace (k : String) (v : MergedR) :
    ∀ (m : List (String × MergedR)) (q : String),
      dlookup (m.map (fun p => if p.1 == k then (k, v) else p)) q =
        if q == k then
          (if m.any (fun p => p.1 == k) then some v else none)
        else dlookup m q := by
  intro m
  induction m with
  | nil =>
    intro q
    by_cases hq : q = k
    · rw [List.map_nil, dlookup_nil, if_pos (sbeq_true hq), List.any_nil]
      rfl
    · rw [List.map_nil, dlookup_nil, if_neg (sbeq_not_true hq)]
  | cons p t ih =>
    intro q
    rw [List.map_cons]
    by_cases hpk : p.1 = k
    · rw [if_pos (sbeq_true hpk), dlookup_cons, dlookup_cons, List.any_cons,
        sbeq_true hpk, Bool.true_or]
      by_cases hq : q = k
      · rw [if_pos (show ((k, v).1 == q) = true from sbeq_true hq.symm),
          if_pos (sbeq_true hq), if_pos rfl]
      · rw [if_neg (show ¬(((k, v).1 == q) = true) from
          sbeq_not_true (fun hc => hq hc.symm)),
          if_neg (sbeq_not_true hq), ih q, if_neg (sbeq_not_true hq),
          if_neg (sbeq_not_true (fun hc => hq (by rw [← hc, hpk])))]
    · rw [if_neg (sbeq_not_true hpk), dlookup_cons, dlookup_cons,
        List.any_cons, sbeq_false hpk, Bool.false_or]
      by_cases hpq : p.1 = q
      · rw [if_pos (sbeq_true hpq), if_pos (sbeq_true hpq),
          if_neg (sbeq_not_true (fun hc => hpk (by rw [hpq, hc])))]
      · rw [if_neg (sbeq_not_true hpq), if_neg (sbeq_not_true hpq), ih q]

theorem dlookup_append_single (k : String) (v : MergedR) :
    ∀ (m : List (String × MergedR)) (q : String),
      dlookup (m ++ [(k, v)]) q =
        match dlookup m q with
        | some r => some r
        | none => if q == k then some v else none := by
  intro m
  induction m with
  | nil =>
    intro q
    rw [List.nil_append, dlookup_nil, dlookup_cons, dlookup_nil]
    by_cases hq : q = k
    · rw [if_pos (show (((k, v)).1 == q) = true from sbeq_true hq.symm),
        if_pos (sbeq_true hq)]
    · rw [if_neg (show ¬((((k, v)).1 == q) = true) from
        sbeq_not_true (fun hc => hq hc.symm)),
        if_neg (sbeq_not_true hq)]
  | cons p t ih =>
    intro q
    rw [List.cons_append, dlookup_cons, dlookup_cons]
    by_cases hpq : p.1 = q
    · rw [if_pos (sbeq_true hpq), if_pos (sbeq_true hpq)]
    · rw [if_neg (sbeq_not_true hpq), if_neg (sbeq_not_true hpq), ih q]

theorem dlookup_isSome (q : String) :
    ∀ m : List (String × MergedR),
      (dlookup m q).isSome = m.any (fun p => p.1 == q) := by
  intro m
  induction m with
  | nil => rfl
  | cons p t ih =>
    rw [dlookup_cons, List.any_cons]
    by_cases hpq : p.1 = q
    · rw [if_pos (sbeq_true hpq), sbeq_true hpq, Bool.true_or]
      rfl
    · rw [if_neg (sbeq_not_true hpq), sbeq_false hpq, Bool.false_or, ih]

theorem dlookup_none_of_any_false {m : List (String × MergedR)} {k : String}
    (h : m.any (fun p => p.1 == k) = false) : dlookup m k = none := by
  have hs := dlookup_isSome k m
  rw [h] at hs
  exact Option.not_isSome_iff_eq_none.mp
    (fun hc => Bool.false_ne_true (hs ▸ hc))

theorem dlookup_dinsert (m : List (String × MergedR)) (k : String)
    (v : MergedR) (q : String) :
    dlookup (dinsert m k v) q = if q == k then some v else dlookup m q := by
  rw [dinsert]
  by_cases hany : m.any (fun p => p.1 == k) = true
  · rw [if_pos hany, dlookup_replace]
    by_cases hq : q = k
    · rw [if_pos (sbeq_true hq), if_pos (sbeq_true hq), if_pos hany]
    · rw [if_neg (sbeq_not_true hq), if_neg (sbeq_not_true hq)]
  · rw [if_neg hany, dlookup_append_single]
    by_cases hq : q = k
    · subst hq
      rw [dlookup_none_of_any_false (Bool.eq_false_iff.mpr hany),
        if_pos (sbeq_true rfl)]
    · cases hdl : dlookup m q
      · rfl
      · conv_rhs => rw [if_neg (sbeq_not_true hq)]

theorem dinsert_keys (m : List (String × MergedR)) (k : String)
    (v : MergedR) :
    (dinsert m k v).map Prod.fst =
      if m.any (fun p => p.1 == k) then m.map Prod.fst
      else m.map Prod.fst ++ [k] := by
  rw [dinsert]
  by_cases hany : m.any (fun p => p.1 == k) = true
  · rw [if_pos hany, if_pos hany, List.map_map]
    refine List.map_congr_left ?_
    intro p _
    by_cases hpk : p.1 = k
    · simp only [Function.comp_apply, if_pos (sbeq_true hpk)]
      exact hpk.symm
    · simp only [Function.comp_apply, if_neg (sbeq_not_true hpk)]
  · rw [if_neg hany, if_neg hany, List.map_append]
    rfl

theorem dinsert_nodup (m : List (String × MergedR)) (k : String)
    (v : MergedR) (h : (m.map Prod.fst).Nodup) :
    ((dinsert m k v).map Prod.fst).Nodup := by
  rw [dinsert_keys]
  by_cases hany : m.any (fun p => p.1 == k) = true
  · rwa [if_pos hany]
  · rw [if_neg hany]
    refine List.nodup_append.mpr ⟨h, List.nodup_singleton k, ?_⟩
    intro a ha hb
    rw [List.mem_singleton] at hb
    subst hb
    obtain ⟨p, hp, hpk⟩ := List.mem_map.mp ha
    exact hany (List.any_eq_true.mpr ⟨p, hp, sbeq_true hpk⟩)

end MergeClaims

section MergeRefinement

/-- The simulation invariant between the insertion-ordered merged map of
the source and the (first-seen key order, keyed table) state of the
specification's algorithm. -/
def MergeInv (m : List (String × MergedR)) (st : SpecMergeState) : Prop :=
  st.keys = m.map Prod.fst ∧ (∀ q, st.table q = dlookup m q) ∧
    (m.map Prod.fst).Nodup

theorem mergeInv_insert (m : List (String × MergedR)) (st : SpecMergeState)
    (k : String) (v : MergedR) (h : MergeInv m st) :
    MergeInv (dinsert m k v) (specInsert st k v) := by
  obtain ⟨hk, ht, hn⟩ := h
  refine ⟨?_, ?_, dinsert_nodup m k v hn⟩
  · show (if (st.table k).isSome then st.keys else st.keys ++ [k]) = _
    rw [ht k, dinsert_keys, dlookup_isSome, hk]
  · intro q
    show (if q == k then some v else st.table q) = _
    rw [dlookup_dinsert, ht q]

theorem mergeInv_foldl_mech :
    ∀ (mech : List DetectionResult) (m : List (String × MergedR))
      (st : SpecMergeState), MergeInv m st →
      MergeInv
        (mech.foldl
          (fun m r => dinsert m (create_mechanical_key r) (Sum.inl r)) m)
        (mech.foldl
          (fun st r => specInsert st (create_mechanical_key r) (Sum.inl r))
          st) := by
  intro mech
  induction mech with
  | nil => intro m st h; exact h
  | cons r t ih =>
    intro m st h
    rw [List.foldl_cons, List.foldl_cons]
    exact ih _ _ (mergeInv_insert _ _ _ _ h)

theorem mergeInv_foldl_llm :
    ∀ (llm : List LLMReviewResponse) (m : List (String × MergedR))
      (st : SpecMergeState), MergeInv m st →
      MergeInv
        (llm.foldl
          (fun m r =>
            match dlookup m (create_llm_key r) with
            | some existing =>
              if issueTypeOf existing == "variant" &&
                  r.issue_type == "typo" then
                dinsert m (create_llm_key r) (Sum.inr r)
              else m
            | none => dinsert m (create_llm_key r) (Sum.inr r)) m)
        (llm.foldl
          (fun st r =>
            match st.table (create_llm_key r) with
            | some existing =>
              if issueTypeOf existing == "variant" &&
                  r.issue_type == "typo" then
                specInsert st (create_llm_key r) (Sum.inr r)
              else st
            | none => specInsert st (create_llm_key r) (Sum.inr r)) st) := by
  intro llm
  induction llm with
  | nil => intro m st h; exact h
  | cons r t ih =>
    intro m st h
    rw [List.foldl_cons, List.foldl_cons]
    have hq := h.2.1 (create_llm_key r)
    cases hdl : dlookup m (create_llm_key r) with
    | none =>
      rw [hdl] at hq
      rw [hq]
      exact ih _ _ (mergeInv_insert _ _ _ _ h)
    | some ex =>
      rw [hdl] at hq
      rw [hq]
      by_cases hcond : (issueTypeOf ex == "variant" &&
          r.issue_type == "typo") = true
      · dsimp only
        rw [if_pos hcond, if_pos hcond]
        exact ih _ _ (mergeInv_insert _ _ _ _ h)
      · dsimp only
        rw [if_neg hcond, if_neg hcond]
        exact ih _ _ h

theorem filterMap_of_inv :
    ∀ (m : List (String × MergedR)) (table : String → Option MergedR),
      (∀ q, table q = dlookup m q) → (m.map Prod.fst).Nodup →
      (m.map Prod.fst).filterMap table = m.map (fun p => p.2) := by
  intro m
  induction m with
  | nil => intro table _ _; rfl
  | cons p t ih =>
    intro table ht hn
    rw [List.map_cons, List.map_cons, List.filterMap_cons]
    have hp : table p.1 = some p.2 := by
      rw [ht p.1, dlookup_cons, if_pos (sbeq_true rfl)]
    rw [hp]
    rw [List.map_cons] at hn
    obtain ⟨hnotin, hnt⟩ := List.nodup_cons.mp hn
    show p.2 :: (t.map Prod.fst).filterMap table =
      p.2 :: t.map (fun p => p.2)
    congr 1
    rw [List.filterMap_congr (g := fun q => dlookup t q) ?_]
    · exact ih (fun q => dlookup t q) (fun q => rfl) hnt
    · intro q hq
      have hqne : ¬p.1 = q := fun hc => hnotin (hc ▸ hq)
      rw [ht q, dlookup_cons, if_neg (sbeq_not_true hqne)]

/-- C1: the Result Reconciler of the source is exactly the
specification's algorithm — mechanical findings are inserted first under
their merge keys, a model finding with a new key is appended, a collision
replaces the existing finding exactly when the existing issue kind is
`variant` and the incoming one is `typo` and keeps the existing finding
otherwise, and the output is in first-seen insertion order. -/
theorem C1_merge_refinement (mech : List DetectionResult)
    (llm : List LLMReviewResponse) :
    merge_detection_results mech llm = mergeSpec mech llm := by
  simp only [merge_detection_results, mergeSpec]
  have h0 : MergeInv [] ⟨[], fun _ => none⟩ :=
    ⟨rfl, fun q => rfl, List.nodup_nil⟩
  have h1 := mergeInv_foldl_mech mech [] ⟨[], fun _ => none⟩ h0
  have h2 := mergeInv_foldl_llm llm _ _ h1
  obtain ⟨hk, ht, hn⟩ := h2
  rw [hk]
  exact (filterMap_of_inv _ _ ht hn).symm

end MergeRefinement
